import Mathlib

/-!
# A shallow embedding of the VSDB versioned key-value backend (`MapxRawVs`)

This file embeds the core of `src/core/src/versioned/mapx_raw/backend.rs`
into Lean and proves/refutes the frozen claims about it.

Modelling conventions:

* Branch and version identifiers are 8-byte big-endian encodings of `u64`
  values in the source, so lexicographic byte order coincides with numeric
  order; we model them as `Nat`.
* Raw keys and values are byte strings, modelled as `List Nat` (`Bytes`).
  The empty byte string is the tombstone marker (`NULL` in the source).
* The source's `MapxRaw` sub-maps come in two flavours:
  - maps whose iteration order is observed by the algorithms
    (a branch's visible version set, and each key's version layer in
    `layered_kv`) are modelled as lists sorted in strictly ascending key
    order, mirroring the byte-ordered backing store;
  - maps used purely for point lookups (the name directories, the outer
    `layered_kv` map, `br_to_its_vers`, `ver_to_change_set` and each
    version's change-set) are modelled as association lists with
    replace-in-place update; no claim observes their iteration order.
* The global id allocator (`VSDB.alloc_br_id` / `VSDB.alloc_ver_id`) lives
  outside `src/`; it is modelled from the spec as per-engine counters that
  yield strictly increasing ids.
* Fallible operations return `Except String`; `.c(d!())` on a `None`
  becomes an `.error` with a descriptive message.
-/

namespace VSDB

/-- Raw byte strings (`RawKey` / `RawValue` in the source). -/
abbrev Bytes := List Nat

/-- Branch identifier (numeric value of the 8-byte big-endian id). -/
abbrev BranchID := Nat

/-- Version identifier (numeric value of the 8-byte big-endian id). -/
abbrev VersionID := Nat

/-- Decidable equality for `Except`, so closed runs of the fallible
operations can be checked by `decide`. -/
instance [DecidableEq ε] [DecidableEq α] : DecidableEq (Except ε α) := fun x y =>
  match x, y with
  | .ok a, .ok b =>
    if h : a = b then .isTrue (by rw [h])
    else .isFalse (by simp [h])
  | .error a, .error b =>
    if h : a = b then .isTrue (by rw [h])
    else .isFalse (by simp [h])
  | .ok _, .error _ => .isFalse (fun hc => Except.noConfusion hc)
  | .error _, .ok _ => .isFalse (fun hc => Except.noConfusion hc)

/-! ## Association lists with replace-in-place update

Used for the point-lookup maps.  `aset` replaces the first binding of the
key in place (or appends a fresh binding), so overwriting a binding with
the value it already has leaves the list unchanged — matching a mutable
map. -/

/-- Point lookup in an association list (first binding wins). -/
def aget [DecidableEq α] : List (α × β) → α → Option β
  | [], _ => none
  | e :: t, k => if e.1 = k then some e.2 else aget t k

/-- Insert/update a binding, replacing the first existing binding in place. -/
def aset [DecidableEq α] : List (α × β) → α → β → List (α × β)
  | [], k, v => [(k, v)]
  | e :: t, k, v => if e.1 = k then (k, v) :: t else e :: aset t k v

/-- Remove the first binding of a key. -/
def aremove [DecidableEq α] : List (α × β) → α → List (α × β)
  | [], _ => []
  | e :: t, k => if e.1 = k then t else e :: aremove t k

/-- Checked removal: the source's `map.remove(k).c(d!())?` pattern, which
fails when the key is absent. -/
def aremoveC [DecidableEq α] (l : List (α × β)) (k : α) :
    Option (β × List (α × β)) :=
  match aget l k with
  | some v => some (v, aremove l k)
  | none => none

/-! ## Sorted version sets

A branch's visible version set (`MapxOrd<VersionID, ()>` in the source:
every stored value is the empty byte string, so the map is a set).
Modelled as a strictly ascending `List Nat`. -/

/-- Insert into a sorted version set (the backing store keeps keys in
ascending byte order; re-inserting an existing id is a no-op because the
associated value is always empty). -/
def sinsert (x : Nat) : List Nat → List Nat
  | [] => [x]
  | y :: t => if x < y then x :: y :: t else if x = y then y :: t else y :: sinsert x t

/-- Membership test (`contains_key`). -/
def scontains (l : List Nat) (x : Nat) : Bool := decide (x ∈ l)

/-- Unchecked removal (`map.remove(k)` with the result discarded). -/
def sremove (l : List Nat) (x : Nat) : List Nat := l.erase x

/-- Checked removal (`map.remove(k).c(d!())?`). -/
def sremoveC (l : List Nat) (x : Nat) : Option (List Nat) :=
  if x ∈ l then some (l.erase x) else none

/-! ## Sorted version→value layers

One key's layer in `layered_kv`: an ordered map from version id to the
value written at that version (`BTreeMap<VersionID, RawValue>`). -/

/-- Insert/update in a version→value layer, keeping ascending key order. -/
def vinsert (k : Nat) (v : Bytes) : List (Nat × Bytes) → List (Nat × Bytes)
  | [] => [(k, v)]
  | e :: t =>
    if k < e.1 then (k, v) :: e :: t
    else if k = e.1 then (k, v) :: t
    else e :: vinsert k v t

/-! ## Change sets

`ver_to_change_set` maps each version to the set of keys mutated at that
version; the stored values are always empty bytes, so each change-set is a
set of keys.  No claim observes change-set iteration beyond per-key
independent operations, so we keep keys in first-insertion order. -/

/-- A change-set: the keys mutated at one version. -/
abbrev ChgSet := List Bytes

/-- Insert a key into a change-set (no-op when already present). -/
def csinsert (cs : ChgSet) (k : Bytes) : ChgSet :=
  if k ∈ cs then cs else cs ++ [k]

/-! ## The engine state -/

/-- Modelled from the spec: the reserved identifier of the initial branch
(`INITIAL_BRANCH_ID`, defined in the crate's `common` module, which is not
part of the provided sources).  The spec reserves `0` as the "none"
sentinel, so the initial branch gets id `1`. -/
def INITIAL_BRANCH_ID : BranchID := 1

/-- Modelled from the spec: the fixed reserved name of the initial branch
(`INITIAL_BRANCH_NAME`); the byte string "main". -/
def INITIAL_BRANCH_NAME : Bytes := [109, 97, 105, 110]

/-- Modelled from the spec: the default number of reserved versions used
by `prune` when the caller passes `None` (`RESERVED_VERSION_NUM_DEFAULT`,
defined outside the provided sources). -/
def RESERVED_VERSION_NUM_DEFAULT : Nat := 10

/-- The modulus of the source's `usize` arithmetic (the spec targets
64-bit identifiers, so `usize` is 64-bit here).  `prune`'s
`1 + reserved_ver_num` is a machine addition: it wraps modulo `2^64` in
release builds (and would panic in debug builds) when
`reserved_ver_num = usize::MAX`. -/
def USIZE_MOD : Nat := 2 ^ 64

/-- The state of a `MapxRawVs` engine: the five persistent indices, the
two derived reverse name maps, the derived layered KV, and the id
allocator counters (modelled from the spec: strictly increasing). -/
structure Engine where
  default_branch : BranchID
  br_name_to_br_id : List (Bytes × BranchID)
  ver_name_to_ver_id : List (Bytes × VersionID)
  br_id_to_br_name : List (BranchID × Bytes)
  ver_id_to_ver_name : List (VersionID × Bytes)
  br_to_its_vers : List (BranchID × List VersionID)
  ver_to_change_set : List (VersionID × ChgSet)
  layered_kv : List (Bytes × List (VersionID × Bytes))
  next_br_id : Nat
  next_ver_id : Nat
  deriving Repr, DecidableEq

/-- `MapxRawVs::new` followed by `init`: one initial branch with the
reserved name/id and an empty visible set; allocator counters start past
the reserved ids. -/
def Engine.new : Engine :=
  { default_branch := INITIAL_BRANCH_ID
    br_name_to_br_id := [(INITIAL_BRANCH_NAME, INITIAL_BRANCH_ID)]
    ver_name_to_ver_id := []
    br_id_to_br_name := [(INITIAL_BRANCH_ID, INITIAL_BRANCH_NAME)]
    ver_id_to_ver_name := []
    br_to_its_vers := [(INITIAL_BRANCH_ID, [])]
    ver_to_change_set := []
    layered_kv := []
    next_br_id := 2
    next_ver_id := 1 }

/-! ## Reads -/

/-- `MapxRawVs::branch_get_default`. -/
def branch_get_default (s : Engine) : BranchID := s.default_branch

/-- `MapxRawVs::get_by_branch_version`: look up the branch's visible set,
then scan the key's layer at versions `≤ ver_id` in descending order and
return the first value whose version is visible; empty bytes mean
"deleted". -/
def get_by_branch_version (s : Engine) (key : Bytes) (br_id : BranchID)
    (ver_id : VersionID) : Option Bytes :=
  match aget s.br_to_its_vers br_id with
  | none => none
  | some vers =>
    match aget s.layered_kv key with
    | none => none
    | some kvers =>
      match ((kvers.filter (fun e => e.1 ≤ ver_id)).reverse.find?
          (fun e => scontains vers e.1)) with
      | none => none
      | some e => if e.2 = [] then none else some e.2

/-- `MapxRawVs::get_by_branch`: read at the branch's greatest version. -/
def get_by_branch (s : Engine) (key : Bytes) (br_id : BranchID) : Option Bytes :=
  match aget s.br_to_its_vers br_id with
  | none => none
  | some vers =>
    match vers.getLast? with
    | none => none
    | some ver_id => get_by_branch_version s key br_id ver_id

/-- `MapxRawVs::get`: read at the head of the default branch. -/
def get (s : Engine) (key : Bytes) : Option Bytes :=
  get_by_branch s key (branch_get_default s)

/-! ## Writes -/

/-- `MapxRawVs::write_by_branch_version`: record the previous effective
value, return early when deleting an absent value, otherwise add the key
to the version's change-set and write the (possibly tombstone) value into
the key's layer. -/
def write_by_branch_version (s : Engine) (key : Bytes) (value : Option Bytes)
    (br_id : BranchID) (ver_id : VersionID) :
    Except String (Option Bytes × Engine) :=
  let ret := get_by_branch_version s key br_id ver_id
  -- remove a non-existing value
  if value = none ∧ ret = none then .ok (none, s)
  else
    match aget s.ver_to_change_set ver_id with
    | none => .error "write: change set not found"
    | some chgset =>
      let s1 := { s with
        ver_to_change_set := aset s.ver_to_change_set ver_id (csinsert chgset key) }
      let kvers := (aget s1.layered_kv key).getD []
      .ok (ret, { s1 with
        layered_kv := aset s1.layered_kv key (vinsert ver_id (value.getD []) kvers) })

/-- `MapxRawVs::insert_by_branch_version` (private): a plain write. -/
def insert_by_branch_version (s : Engine) (key value : Bytes)
    (br_id : BranchID) (ver_id : VersionID) :
    Except String (Option Bytes × Engine) :=
  write_by_branch_version s key (some value) br_id ver_id

/-- `MapxRawVs::insert_by_branch`: write at the branch's latest version. -/
def insert_by_branch (s : Engine) (key value : Bytes) (br_id : BranchID) :
    Except String (Option Bytes × Engine) :=
  match aget s.br_to_its_vers br_id with
  | none => .error "branch not found"
  | some vers =>
    match vers.getLast? with
    | none => .error "no version on this branch, create a version first"
    | some ver_id => insert_by_branch_version s key value br_id ver_id

/-- `MapxRawVs::insert`: insert on the default branch. -/
def insert (s : Engine) (key value : Bytes) :
    Except String (Option Bytes × Engine) :=
  insert_by_branch s key value (branch_get_default s)

/-- `MapxRawVs::remove_by_branch_version` (private): write a `None`. -/
def remove_by_branch_version (s : Engine) (key : Bytes)
    (br_id : BranchID) (ver_id : VersionID) :
    Except String (Option Bytes × Engine) :=
  write_by_branch_version s key none br_id ver_id

/-- `MapxRawVs::remove_by_branch`: delete at the branch's latest version. -/
def remove_by_branch (s : Engine) (key : Bytes) (br_id : BranchID) :
    Except String (Option Bytes × Engine) :=
  match aget s.br_to_its_vers br_id with
  | none => .error "branch not found"
  | some vers =>
    match vers.getLast? with
    | none => .error "no version on this branch, create a version first"
    | some ver_id => remove_by_branch_version s key br_id ver_id

/-- `MapxRawVs::remove`: delete on the default branch. -/
def remove (s : Engine) (key : Bytes) : Except String (Option Bytes × Engine) :=
  remove_by_branch s key (branch_get_default s)

/-! ## Version management -/

/-- `MapxRawVs::version_create_by_branch`: allocate a fresh version id,
append it to the branch's visible set, register the name bindings and an
empty change-set. -/
def version_create_by_branch (s : Engine) (ver_name : Bytes) (br_id : BranchID) :
    Except String Engine :=
  if (aget s.ver_name_to_ver_id ver_name).isSome then
    .error "version already exists"
  else
    match aget s.br_to_its_vers br_id with
    | none => .error "branch not found"
    | some vers =>
      let ver_id := s.next_ver_id
      .ok { s with
        next_ver_id := ver_id + 1
        br_to_its_vers := aset s.br_to_its_vers br_id (sinsert ver_id vers)
        ver_name_to_ver_id := aset s.ver_name_to_ver_id ver_name ver_id
        ver_id_to_ver_name := aset s.ver_id_to_ver_name ver_id ver_name
        ver_to_change_set := aset s.ver_to_change_set ver_id [] }

/-- `MapxRawVs::version_create`: create on the default branch. -/
def version_create (s : Engine) (ver_name : Bytes) : Except String Engine :=
  version_create_by_branch s ver_name (branch_get_default s)

/-- `MapxRawVs::version_exists_globally`. -/
def version_exists_globally (s : Engine) (ver_id : VersionID) : Bool :=
  (aget s.ver_to_change_set ver_id).isSome

/-- `MapxRawVs::version_exists_on_branch`. -/
def version_exists_on_branch (s : Engine) (ver_id : VersionID)
    (br_id : BranchID) : Bool :=
  match aget s.br_to_its_vers br_id with
  | some vers => scontains vers ver_id
  | none => false

/-! ## Global cleanup -/

/-- The set of versions visible on at least one branch (the `valid_vers`
`HashSet` built at the start of `version_clean_up_globally`). -/
def validVers (s : Engine) : List VersionID :=
  (s.br_to_its_vers.map Prod.snd).flatten

/-- The per-key part of the orphan-removal loop in
`version_clean_up_globally`: remove the orphan version from one key's
layer, dropping the key entirely when its layer becomes empty. -/
def cleanUpKeyStep (ver : VersionID) (st2 : Engine) (k : Bytes) :
    Except String Engine :=
  match aget st2.layered_kv k with
  | none => .error "cleanup: key not in layered kv"
  | some kvers =>
    match aremoveC kvers ver with
    | none => .error "cleanup: version not in key layer"
    | some (_, kvers') =>
      .ok { st2 with layered_kv :=
        (if kvers'.isEmpty then aremove st2.layered_kv k
          else aset st2.layered_kv k kvers') }

/-- One iteration of the orphan-removal loop in
`version_clean_up_globally`: drop the orphan version from every key layer
it touched, then from the name directories and the change-set index. -/
def cleanUpStep (st : Engine) (e : VersionID × ChgSet) : Except String Engine :=
  (e.2.foldlM (cleanUpKeyStep e.1) st) >>= fun st3 =>
  match aget st3.ver_id_to_ver_name e.1 with
  | none => .error "cleanup: version name not found"
  | some vername =>
    match aget st3.ver_name_to_ver_id vername with
    | none => .error "cleanup: version id not found"
    | some _ =>
      match aget st3.ver_to_change_set e.1 with
      | none => .error "cleanup: change set not found"
      | some _ =>
        .ok { st3 with
          ver_id_to_ver_name := aremove st3.ver_id_to_ver_name e.1
          ver_name_to_ver_id := aremove st3.ver_name_to_ver_id vername
          ver_to_change_set := aremove st3.ver_to_change_set e.1 }

/-- `MapxRawVs::version_clean_up_globally`: remove every version that is
on no branch's visible set, together with its data and name bindings.
The source iterates over a shadow of `ver_to_change_set` filtered to the
orphans while mutating the engine. -/
def version_clean_up_globally (s : Engine) : Except String Engine :=
  let valid := validVers s
  let orphans := s.ver_to_change_set.filter (fun e => ¬ e.1 ∈ valid)
  orphans.foldlM cleanUpStep s

/-- `MapxRawVs::version_revert_globally`: purge one version and its
changes from every branch and index. -/
def version_revert_globally (s : Engine) (ver_id : VersionID) :
    Except String Engine :=
  match aremoveC s.ver_to_change_set ver_id with
  | none => .error "revert: change set not found"
  | some (chgset, vtc') =>
    (chgset.foldlM (fun st k =>
      match aget st.layered_kv k with
      | none => .error "revert: key not in layered kv"
      | some kvers =>
        match aremoveC kvers ver_id with
        | none => .error "revert: version not in key layer"
        | some (_, kvers') =>
          .ok { st with layered_kv := aset st.layered_kv k kvers' })
      { s with ver_to_change_set := vtc' }) >>= fun (st : Engine) =>
    let st := { st with
      br_to_its_vers := st.br_to_its_vers.map
        (fun (e : BranchID × List VersionID) => (e.1, sremove e.2 ver_id)) }
    match aget st.ver_id_to_ver_name ver_id with
    | none => .error "revert: version name not found"
    | some vername =>
      match aget st.ver_name_to_ver_id vername with
      | none => .error "revert: version id not found"
      | some _ =>
        .ok { st with
          ver_id_to_ver_name := aremove st.ver_id_to_ver_name ver_id
          ver_name_to_ver_id := aremove st.ver_name_to_ver_id vername }

/-! ## Branch management -/

/-- `MapxRawVs::branch_exists`. -/
def branch_exists (s : Engine) (br_id : BranchID) : Bool :=
  (aget s.br_id_to_br_name br_id).isSome

/-- `MapxRawVs::branch_get_default_name`.  The source unwraps the lookup
(panicking when the default id is unbound); we return the lookup itself,
so a dangling default id yields `none`. -/
def branch_get_default_name (s : Engine) : Option Bytes :=
  aget s.br_id_to_br_name s.default_branch

/-- `MapxRawVs::branch_truncate`: clear the branch's visible set in place
(the cleared sub-map is handed to the background trash cleaner). -/
def branch_truncate (s : Engine) (br_id : BranchID) : Except String Engine :=
  match aget s.br_to_its_vers br_id with
  | some _ => .ok { s with br_to_its_vers := aset s.br_to_its_vers br_id [] }
  | none => .error "branch not found"

/-- `MapxRawVs::branch_remove`: truncate the visible set, drop the name
bindings, and drop the branch's entry from `br_to_its_vers`. -/
def branch_remove (s : Engine) (br_id : BranchID) : Except String Engine :=
  (branch_truncate s br_id) >>= fun s1 =>
  match aget s1.br_id_to_br_name br_id with
  | none => .error "branch name not found"
  | some brname =>
    match aget s1.br_name_to_br_id brname with
    | none => .error "branch id not found"
    | some _ =>
      let s2 := { s1 with
        br_id_to_br_name := aremove s1.br_id_to_br_name br_id
        br_name_to_br_id := aremove s1.br_name_to_br_id brname }
      match aget s2.br_to_its_vers br_id with
      | none => .error "branch vers not found"
      | some _ =>
        .ok { s2 with br_to_its_vers := aremove s2.br_to_its_vers br_id }

/-- The visible-set copy of `do_branch_create_by_base_branch_version`:
`vers.range(..=bv)` folded into a fresh map — the ascending prefix of the
base branch's visible set up to the base version (all of it when no base
version is given the branch starts empty), failing when the base version
is not on the base branch. -/
def versCopied (vers : List VersionID) :
    Option VersionID → Except String (List VersionID)
  | some bv =>
    if scontains vers bv then .ok (vers.filter (fun v => v ≤ bv))
    else .error "version is not on the base branch"
  | none => .ok []

/-- `MapxRawVs::do_branch_create_by_base_branch_version`: optionally
force-remove an existing branch of the same name, copy the base branch's
visible set up to the base version into a fresh branch, and optionally
create a first version on it. -/
def do_branch_create_by_base_branch_version (s : Engine) (br_name : Bytes)
    (ver_name : Option Bytes) (base_br_id : BranchID)
    (base_ver_id : Option VersionID) (force : Bool) : Except String Engine :=
  (if force then
    match aget s.br_name_to_br_id br_name with
    | some brid => branch_remove s brid
    | none => .ok s
  else .ok s) >>= fun s1 =>
  if (aget s1.br_name_to_br_id br_name).isSome then .error "branch already exists"
  else
    match aget s1.br_to_its_vers base_br_id with
    | none => .error "base branch not exist"
    | some vers =>
      (versCopied vers base_ver_id) >>= fun vers_copied =>
      let br_id := s1.next_br_id
      let s2 := { s1 with
        next_br_id := br_id + 1
        br_name_to_br_id := aset s1.br_name_to_br_id br_name br_id
        br_id_to_br_name := aset s1.br_id_to_br_name br_id br_name
        br_to_its_vers := aset s1.br_to_its_vers br_id vers_copied }
      match ver_name with
      | some vername => version_create_by_branch s2 vername br_id
      | none => .ok s2

/-- `MapxRawVs::branch_create_by_base_branch_version`. -/
def branch_create_by_base_branch_version (s : Engine) (br_name ver_name : Bytes)
    (base_br_id : BranchID) (base_ver_id : VersionID) (force : Bool) :
    Except String Engine :=
  if (aget s.ver_name_to_ver_id ver_name).isSome then
    .error "this version already exists"
  else
    do_branch_create_by_base_branch_version s br_name (some ver_name)
      base_br_id (some base_ver_id) force

/-- Fold of `sinsert` over a list: the `for_each(insert)` loops of
`do_branch_merge_to`. -/
def insFold (xs : List Nat) (target : List Nat) : List Nat :=
  xs.foldl (fun acc v => sinsert v acc) target

/-- The non-`force` safety check of `do_branch_merge_to`: the target's
latest version must be visible on the source branch. -/
def mergeSafetyOk (vers target_vers : List VersionID) : Bool :=
  match target_vers.getLast? with
  | some v => scontains vers v
  | none => true

/-- `MapxRawVs::do_branch_merge_to`: find the first fork point between the
two visible sets; if one exists, copy the source's versions from the fork
onward into the target; otherwise append the source's newer suffix (or
copy everything when the target is empty). -/
def do_branch_merge_to (s : Engine) (br_id target_br_id : BranchID)
    (force : Bool) : Except String Engine :=
  match aget s.br_to_its_vers br_id with
  | none => .error "branch not found"
  | some vers =>
    match aget s.br_to_its_vers target_br_id with
    | none => .error "target branch not found"
    | some target_vers =>
      if ¬ force ∧ ¬ mergeSafetyOk vers target_vers then
        .error "unable to merge safely"
      else
        match (vers.zip target_vers).find? (fun p => p.1 ≠ p.2) with
        | some fork =>
          let tv := insFold (vers.filter (fun v => fork.1 ≤ v)) target_vers
          .ok { s with br_to_its_vers := aset s.br_to_its_vers target_br_id tv }
        | none =>
          match vers.getLast? with
          | some latest_ver =>
            match target_vers.getLast? with
            | some target_latest_ver =>
              if latest_ver = target_latest_ver then
                -- no differences between the two branches
                .ok s
              else if target_latest_ver < latest_ver then
                let tv := insFold
                  (vers.filter (fun v => target_latest_ver + 1 ≤ v)) target_vers
                .ok { s with
                  br_to_its_vers := aset s.br_to_its_vers target_br_id tv }
              else .ok s
            | none =>
              -- target branch is empty, copy all versions to it
              let tv := insFold vers target_vers
              .ok { s with
                br_to_its_vers := aset s.br_to_its_vers target_br_id tv }
          | none =>
            -- nothing to be merged
            .ok s

/-- `MapxRawVs::branch_merge_to` (the non-`force` public entry). -/
def branch_merge_to (s : Engine) (br_id target_br_id : BranchID) :
    Except String Engine :=
  do_branch_merge_to s br_id target_br_id false

/-- `MapxRawVs::branch_swap`: swap the name↔id bindings of two named
branches and retarget the default id when it pointed at either.  Each
`insert(..).c(d!())?` in the source fails when the key had no previous
binding, so the updates are checked. -/
def branch_swap (s : Engine) (branch_1 branch_2 : Bytes) :
    Except String Engine :=
  match aget s.br_name_to_br_id branch_1 with
  | none => .error "swap: branch_1 not found"
  | some brid_1 =>
    match aget s.br_name_to_br_id branch_2 with
    | none => .error "swap: branch_2 not found"
    | some brid_2 =>
      let m1 := aset s.br_name_to_br_id branch_1 brid_2
      if (aget m1 branch_2).isSome then
        let m2 := aset m1 branch_2 brid_1
        match aget s.br_id_to_br_name brid_1 with
        | none => .error "swap: name of branch_1 not found"
        | some _ =>
          let n1 := aset s.br_id_to_br_name brid_1 branch_2
          match aget n1 brid_2 with
          | none => .error "swap: name of branch_2 not found"
          | some _ =>
            let n2 := aset n1 brid_2 branch_1
            let s1 := { s with br_name_to_br_id := m2, br_id_to_br_name := n2 }
            .ok (if s1.default_branch = brid_1 then
                  { s1 with default_branch := brid_2 }
                else if s1.default_branch = brid_2 then
                  { s1 with default_branch := brid_1 }
                else s1)
      else .error "swap: branch_2 not bound"

/-! ## Prune -/

/-- The longest-common-prefix loop of `prune`: the first branch's versions
drive the `guard`; every other branch must yield the same id at each step,
and the loop stops at the first divergence or exhaustion. -/
def lcpAll : List Nat → List (List Nat) → List Nat
  | [], _ => []
  | g :: tl, rest =>
    if rest.all (fun l => decide (l.head? = some g)) then
      g :: lcpAll tl (rest.map List.tail)
    else []

/-- Step 5 of `prune`: remove every merged version from every non-empty
branch's visible set, failing if one is missing (`remove(...).c(d!())?`).
The source mutates the decoded views collected in `br_vers_non_empty`,
which alias the engine's stored sub-maps. -/
def pruneRemoveMerged (btv : List (BranchID × List VersionID))
    (to_merge : List VersionID) :
    Except String (List (BranchID × List VersionID)) :=
  btv.mapM (fun e =>
    if e.2.isEmpty then .ok e
    else
      (to_merge.foldlM (fun vs ver =>
        match sremoveC vs ver with
        | some vs' => Except.ok vs'
        | none => Except.error "prune: version not on branch") e.2).map
        (fun vs' => (e.1, vs')))

/-- Step 6 of `prune`: for each merged version (ascending), record
`(key, value-at-that-version)` for every key in its change-set; later
versions overwrite earlier ones (last-writer-wins).  Also returns the
collected change-sets (the source's `chgsets` vector). -/
def pruneCollect (s : Engine) (to_merge : List VersionID) :
    Except String (List (Bytes × Bytes) × List ChgSet) :=
  to_merge.foldlM (fun acc ver =>
    match aget s.ver_to_change_set ver with
    | none => .error "prune: change set not found"
    | some chgset =>
      (chgset.foldlM (fun acc2 k =>
        match aget s.layered_kv k with
        | none => Except.error "prune: key not in layered kv"
        | some kvers =>
          match aget kvers ver with
          | none => Except.error "prune: version not in key layer"
          | some value => Except.ok (aset acc2 k value)) acc.1).map
        (fun m => (m, acc.2 ++ [chgset]))) (([], []) : List (Bytes × Bytes) × List ChgSet)

/-- Step 9 of `prune`: for every key touched by the merge, drop the
rewrite-version entry (and the key from the rewrite version's change-set)
when it is a tombstone, and drop the key entirely when its layer became
empty. -/
def pruneTombstoneStep (rewrite_ver : VersionID) (st : Engine) (k : Bytes) :
    Except String Engine :=
  match aget st.layered_kv k with
  | none => .ok st
  | some kvers =>
    match aget kvers rewrite_ver with
    | none => .error "prune: rewrite version not in key layer"
    | some v =>
      (if v = [] then
        match aremoveC kvers rewrite_ver with
        | none => Except.error "prune: rewrite version not in key layer"
        | some (_, kvers') =>
          match aget st.ver_to_change_set rewrite_ver with
          | none => Except.error "prune: rewrite change set not found"
          | some rcs =>
            if k ∈ rcs then
              Except.ok ({ st with
                layered_kv := aset st.layered_kv k kvers'
                ver_to_change_set :=
                  aset st.ver_to_change_set rewrite_ver (rcs.erase k) }, kvers')
            else Except.error "prune: key not in rewrite change set"
      else Except.ok (st, kvers)) >>= fun (st2, kvers2) =>
      if kvers2.isEmpty then
        .ok { st2 with layered_kv := aremove st2.layered_kv k }
      else .ok st2

/-- The body of `MapxRawVs::prune` after the reserve-count validity
check: collapse the longest common prefix of versions shared by every
non-empty branch (minus the reserved newest ones and the never-deleted
initial version) into the oldest version, preserving last-writer-wins,
then clean up the orphaned versions. -/
def pruneAfterCheck (s : Engine) (reserved_ver_num : Nat) :
    Except String Engine :=
    let br_vers_non_empty :=
      (s.br_to_its_vers.map Prod.snd).filter (fun vs => ¬ vs.isEmpty)
    if br_vers_non_empty.isEmpty then .ok s
    else
      let vers_to_be_merged :=
        match br_vers_non_empty with
        | [] => []
        | first :: rest => lcpAll first rest
      let l := vers_to_be_merged.length
      if l ≤ reserved_ver_num then .ok s
      else
        match vers_to_be_merged with
        | [] => .error "prune: BUG: empty common prefix"
        | rewrite_ver :: _ =>
          let guard_idx := l - reserved_ver_num + 1
          let to_merge := (vers_to_be_merged.drop 1).take (guard_idx - 1)
          match aget s.ver_to_change_set rewrite_ver with
          | none => .error "prune: rewrite change set not found"
          | some _ =>
            (pruneRemoveMerged s.br_to_its_vers to_merge).bind fun btv1 =>
            (pruneCollect s to_merge).bind fun (collected, chgsets) =>
            -- step 7: write the collected pairs into the rewrite version
            -- (`k_vers` is a live view into `layered_kv`, so the inserts
            -- land in the current layer of each key)
            let s1 := collected.foldl (fun (st : Engine) kv =>
              { st with
                ver_to_change_set :=
                  aset st.ver_to_change_set rewrite_ver
                    (csinsert ((aget st.ver_to_change_set rewrite_ver).getD []) kv.1)
                layered_kv :=
                  aset st.layered_kv kv.1
                    (vinsert rewrite_ver kv.2 ((aget st.layered_kv kv.1).getD [])) })
              { s with br_to_its_vers := btv1 }
            -- step 8: make every merged version an orphan on all branches
            let s2 := { s1 with
              br_to_its_vers := to_merge.foldl
                (fun btv ver => btv.map
                  (fun (e : BranchID × List VersionID) => (e.1, sremove e.2 ver)))
                s1.br_to_its_vers }
            -- step 9 over the deduplicated set of touched keys
            (chgsets.flatten.dedup.foldlM (pruneTombstoneStep rewrite_ver) s2).bind
              fun s3 =>
            version_clean_up_globally s3

/-- `MapxRawVs::prune`: validate the reserve count, then run the pruning
body. -/
def prune (s : Engine) (reserved : Option Nat) : Except String Engine :=
  -- the '1' of this 'add 1' means the never-deleted initial version;
  -- the addition is `usize` machine arithmetic, wrapping modulo 2^64
  let reserved_ver_num := (1 + reserved.getD RESERVED_VERSION_NUM_DEFAULT) % USIZE_MOD
  if reserved_ver_num = 0 then
    .error "reserved version number should NOT be zero"
  else pruneAfterCheck s reserved_ver_num

/-! ## Lemmas about the association-list primitives -/

theorem aget_aset_self [DecidableEq α] (l : List (α × β)) (k : α) (v : β) :
    aget (aset l k v) k = some v := by
  induction l with
  | nil => simp [aget, aset]
  | cons e t ih =>
    by_cases h : e.1 = k
    · simp [aset, h, aget]
    · simp [aset, h, aget, ih]

theorem aget_aset_ne [DecidableEq α] (l : List (α × β)) {k k' : α} {v : β}
    (h : k' ≠ k) : aget (aset l k v) k' = aget l k' := by
  induction l with
  | nil => simp [aget, aset, Ne.symm h]
  | cons e t ih =>
    by_cases he : e.1 = k
    · subst he
      simp [aset, aget, Ne.symm h]
    · simp only [aset, if_neg he, aget, ih]

theorem aset_eq_self [DecidableEq α] {l : List (α × β)} {k : α} {v : β}
    (h : aget l k = some v) : aset l k v = l := by
  induction l with
  | nil => simp [aget] at h
  | cons e t ih =>
    by_cases he : e.1 = k
    · simp only [aget, if_pos he] at h
      simp only [aset, if_pos he]
      cases e with
      | mk a b => cases h; cases he; rfl
    · simp only [aget, if_neg he] at h
      simp [aset, he, ih h]

theorem mem_aset [DecidableEq α] {l : List (α × β)} {k : α} {v : β}
    {e' : α × β} (h : e' ∈ aset l k v) : e' = (k, v) ∨ e' ∈ l := by
  induction l with
  | nil => simpa [aset] using h
  | cons e t ih =>
    by_cases he : e.1 = k
    · simp only [aset, if_pos he, List.mem_cons] at h
      rcases h with h | h
      · exact Or.inl h
      · exact Or.inr (List.mem_cons_of_mem _ h)
    · simp only [aset, if_neg he, List.mem_cons] at h
      rcases h with h | h
      · exact Or.inr (h ▸ List.mem_cons_self _ _)
      · rcases ih h with h' | h'
        · exact Or.inl h'
        · exact Or.inr (List.mem_cons_of_mem _ h')

theorem aget_mem [DecidableEq α] {l : List (α × β)} {k : α} {v : β}
    (h : aget l k = some v) : (k, v) ∈ l := by
  induction l with
  | nil => simp [aget] at h
  | cons e t ih =>
    by_cases he : e.1 = k
    · simp only [aget, if_pos he] at h
      cases h; cases he
      exact List.mem_cons_self _ _
    · simp only [aget, if_neg he] at h
      exact List.mem_cons_of_mem _ (ih h)

theorem aremove_sublist [DecidableEq α] (l : List (α × β)) (k : α) :
    (aremove l k).Sublist l := by
  induction l with
  | nil => simp [aremove]
  | cons e t ih =>
    by_cases he : e.1 = k
    · simp only [aremove, if_pos he]
      exact List.sublist_cons_self e t
    · simpa [aremove, he] using ih.cons₂ e

theorem aget_aremove_ne [DecidableEq α] (l : List (α × β)) {k k' : α}
    (h : k' ≠ k) : aget (aremove l k) k' = aget l k' := by
  induction l with
  | nil => rfl
  | cons e t ih =>
    by_cases he : e.1 = k
    · subst he
      simp [aremove, aget, Ne.symm h]
    · simp only [aremove, if_neg he, aget, ih]

theorem aget_eq_none_of_not_mem_keys [DecidableEq α] {l : List (α × β)} {k : α}
    (h : ¬ k ∈ l.map Prod.fst) : aget l k = none := by
  induction l with
  | nil => rfl
  | cons e t ih =>
    simp only [List.map_cons, List.mem_cons] at h
    push_neg at h
    simp only [aget, if_neg (Ne.symm h.1)]
    exact ih h.2

theorem aget_aremove_self [DecidableEq α] {l : List (α × β)} {k : α}
    (h : (l.map Prod.fst).Nodup) : aget (aremove l k) k = none := by
  induction l with
  | nil => rfl
  | cons e t ih =>
    simp only [List.map_cons, List.nodup_cons] at h
    by_cases he : e.1 = k
    · simp only [aremove, if_pos he]
      subst he
      exact aget_eq_none_of_not_mem_keys h.1
    · simp only [aremove, if_neg he, aget, if_neg he]
      exact ih h.2

theorem aget_isSome_of_mem_keys [DecidableEq α] {l : List (α × β)} {e : α × β}
    (h : e ∈ l) : (aget l e.1).isSome := by
  induction l with
  | nil => simp at h
  | cons e' t ih =>
    rcases List.mem_cons.mp h with h | h
    · subst h; simp [aget]
    · by_cases he : e'.1 = e.1
      · simp [aget, he]
      · simp only [aget, if_neg he]
        exact ih h

/-! ## Lemmas about sorted version sets -/

theorem mem_sinsert {a x : Nat} {l : List Nat} :
    a ∈ sinsert x l ↔ a = x ∨ a ∈ l := by
  induction l with
  | nil => simp [sinsert]
  | cons y t ih =>
    by_cases h1 : x < y
    · simp [sinsert, h1]
    · by_cases h2 : x = y
      · subst h2
        simp only [sinsert, if_neg h1, if_pos rfl]
        constructor
        · intro h; exact Or.inr h
        · rintro (h | h)
          · exact h ▸ List.mem_cons_self _ _
          · exact h
      · simp only [sinsert, if_neg h1, if_neg h2, List.mem_cons, ih]
        tauto

theorem sorted_sinsert {x : Nat} {l : List Nat}
    (h : l.Sorted (· < ·)) : (sinsert x l).Sorted (· < ·) := by
  induction l with
  | nil => simp [sinsert]
  | cons y t ih =>
    rw [List.sorted_cons] at h
    by_cases h1 : x < y
    · simp only [sinsert, if_pos h1, List.sorted_cons]
      refine ⟨?_, h⟩
      intro b hb
      rcases List.mem_cons.mp hb with hb | hb
      · exact hb ▸ h1
      · exact h1.trans (h.1 b hb)
    · by_cases h2 : x = y
      · simpa [sinsert, if_neg h1, if_pos h2, List.sorted_cons] using h
      · simp only [sinsert, if_neg h1, if_neg h2, List.sorted_cons]
        refine ⟨?_, ih h.2⟩
        intro b hb
        rcases mem_sinsert.mp hb with hb | hb
        · exact hb ▸ lt_of_le_of_ne (not_lt.mp h1) (Ne.symm h2)
        · exact h.1 b hb

theorem sinsert_eq_self {x : Nat} {l : List Nat}
    (hs : l.Sorted (· < ·)) (hm : x ∈ l) : sinsert x l = l := by
  induction l with
  | nil => simp at hm
  | cons y t ih =>
    rw [List.sorted_cons] at hs
    rcases List.mem_cons.mp hm with hm | hm
    · subst hm
      simp [sinsert]
    · have hxy : y < x := hs.1 x hm
      simp only [sinsert, if_neg (not_lt.mpr hxy.le), if_neg (Ne.symm hxy.ne),
        ih hs.2 hm]

theorem mem_insFold {a : Nat} {xs t : List Nat} :
    a ∈ insFold xs t ↔ a ∈ xs ∨ a ∈ t := by
  induction xs generalizing t with
  | nil => simp [insFold]
  | cons x xs ih =>
    simp only [insFold, List.foldl_cons] at ih ⊢
    rw [ih, mem_sinsert]
    simp [List.mem_cons]
    tauto

theorem sorted_insFold {xs t : List Nat} (h : t.Sorted (· < ·)) :
    (insFold xs t).Sorted (· < ·) := by
  induction xs generalizing t with
  | nil => simpa [insFold]
  | cons x xs ih =>
    simp only [insFold, List.foldl_cons] at ih ⊢
    exact ih (sorted_sinsert h)

theorem insFold_eq_self {xs t : List Nat} (hs : t.Sorted (· < ·))
    (h : ∀ x ∈ xs, x ∈ t) : insFold xs t = t := by
  induction xs with
  | nil => rfl
  | cons x xs ih =>
    simp only [insFold, List.foldl_cons]
    rw [sinsert_eq_self hs (h x (List.mem_cons_self _ _))]
    exact ih fun y hy => h y (List.mem_cons_of_mem _ hy)

theorem getLast?_mem_nat {l : List Nat} {m : Nat} (h : l.getLast? = some m) :
    m ∈ l := by
  induction l with
  | nil => simp at h
  | cons y t ih =>
    cases t with
    | nil => simp_all
    | cons z t' =>
      rw [List.getLast?_cons_cons] at h
      exact List.mem_cons_of_mem _ (ih h)

theorem sorted_le_getLast {l : List Nat} {a m : Nat}
    (hs : l.Sorted (· < ·)) (ha : a ∈ l) (h : l.getLast? = some m) : a ≤ m := by
  induction l with
  | nil => simp at ha
  | cons y t ih =>
    rw [List.sorted_cons] at hs
    cases t with
    | nil =>
      simp only [List.getLast?_singleton, Option.some.injEq] at h
      subst h
      exact le_of_eq (List.mem_singleton.mp ha)
    | cons z t' =>
      rw [List.getLast?_cons_cons] at h
      rcases List.mem_cons.mp ha with ha | ha
      · subst ha
        exact (hs.1 m (getLast?_mem_nat h)).le
      · exact ih hs.2 ha h

theorem find?_congr {l : List α} {p q : α → Bool}
    (h : ∀ e ∈ l, p e = q e) : l.find? p = l.find? q := by
  induction l with
  | nil => rfl
  | cons e t ih =>
    have he := h e (List.mem_cons_self _ _)
    by_cases hp : p e
    · rw [List.find?_cons_of_pos _ hp, List.find?_cons_of_pos _ (he ▸ hp)]
    · rw [List.find?_cons_of_neg _ hp,
        List.find?_cons_of_neg _ (fun hq => hp (he ▸ hq))]
      exact ih fun x hx => h x (List.mem_cons_of_mem _ hx)

/-! ## Lemmas about version→value layers -/

theorem filter_le_vinsert {m : Nat} {v : Bytes} {l : List (Nat × Bytes)}
    (hs : l.Sorted (fun a b => a.1 < b.1)) :
    (vinsert m v l).filter (fun e => e.1 ≤ m) =
      l.filter (fun e => e.1 < m) ++ [(m, v)] := by
  induction l with
  | nil => simp [vinsert]
  | cons e t ih =>
    rw [List.sorted_cons] at hs
    by_cases h1 : m < e.1
    · have ht : ∀ x ∈ e :: t, ¬ x.1 ≤ m := by
        intro x hx
        rcases List.mem_cons.mp hx with hx | hx
        · exact hx ▸ not_le.mpr h1
        · exact not_le.mpr (h1.trans (hs.1 x hx))
      have ht' : ∀ x ∈ e :: t, ¬ x.1 < m := fun x hx hlt =>
        ht x hx hlt.le
      rw [vinsert, if_pos h1]
      rw [List.filter_cons_of_pos (by simp), List.filter_eq_nil_iff.mpr (by
        intro x hx
        simpa using ht x hx)]
      rw [List.filter_eq_nil_iff.mpr (by
        intro x hx
        simpa using ht' x hx)]
      rfl
    · by_cases h2 : m = e.1
      · rw [vinsert, if_neg h1, if_pos h2]
        have ht : ∀ x ∈ t, ¬ x.1 ≤ m := fun x hx =>
          not_le.mpr (h2 ▸ hs.1 x hx)
        have hte : ¬ e.1 < m := h2 ▸ lt_irrefl m
        rw [List.filter_cons_of_pos (by simp),
          List.filter_eq_nil_iff.mpr (by intro x hx; simpa using ht x hx),
          List.filter_cons_of_neg (by simpa using hte),
          List.filter_eq_nil_iff.mpr (by
            intro x hx
            simp only [decide_eq_true_eq]
            exact fun hlt => ht x hx hlt.le)]
        rfl
      · have h3 : e.1 < m := lt_of_le_of_ne (not_lt.mp h1) (fun hc => h2 hc.symm)
        rw [vinsert, if_neg h1, if_neg h2,
          List.filter_cons_of_pos (by simpa using h3.le),
          List.filter_cons_of_pos (by simpa using h3), ih hs.2]
        rfl

/-! ## Well-formed engine states

States reachable through the public API keep every ordered sub-map sorted
in strictly ascending key order, allocate ids below the allocator
counters, and never duplicate keys of the change-set index or the reverse
name map.  The claims that quantify over states assume this shape. -/

def WF (s : Engine) : Prop :=
  (∀ e ∈ s.br_to_its_vers,
    e.2.Sorted (· < ·) ∧ e.1 < s.next_br_id ∧ ∀ v ∈ e.2, v < s.next_ver_id) ∧
  (∀ e ∈ s.layered_kv, e.2.Sorted (fun a b => a.1 < b.1)) ∧
  (s.ver_to_change_set.map Prod.fst).Nodup ∧
  (s.br_id_to_br_name.map Prod.fst).Nodup

instance (s : Engine) : Decidable (WF s) := by
  unfold WF
  infer_instance

/-! ## Concrete scenario states -/

/-- A fresh engine after `version_create("v")`: the default branch has
exactly one version (id `1`) with an empty change-set. -/
def engOneVer : Engine := ((version_create Engine.new [118]).toOption).getD Engine.new

/-- One step of the prune scenario: create the next version (named by its
decimal digit) and write key `[1]` with value `[i]` on the default
branch. -/
def c3step (s : Engine) (i : Nat) : Except String Engine :=
  (version_create s [48 + i]).bind fun s1 => (insert s1 [1] [i]).map Prod.snd

/-- The prune scenario: versions v1..v5 (ids 1..5) each write key `[1]`
with values `[1]`..`[5]` in order on the default branch. -/
def c3base : Except String Engine := [1, 2, 3, 4, 5].foldlM c3step Engine.new

/-- The prune scenario after `prune(Some(1))`. -/
def c3pruned : Except String Engine := c3base.bind fun s => prune s (some 1)

/-! ## C1 -/

/-- The point read as the spec words it (§4.1 "Point read"): take the
branch's visible set `V` (`None` if the branch is unknown), descend the
entries of `lkv[key]` with version id ≤ `version` in reverse version
order, and return the value of the first entry whose version id lies in
`V`, with the empty value read as `None`. -/
def specPointRead (s : Engine) (key : Bytes) (br_id : BranchID)
    (ver_id : VersionID) : Option Bytes :=
  match aget s.br_to_its_vers br_id with
  | none => none
  | some V =>
    match (((aget s.layered_kv key).getD []).filter
        (fun e => e.1 ≤ ver_id)).reverse.find? (fun e => scontains V e.1) with
    | none => none
    | some e => if e.2 = [] then none else some e.2

/-- C1: for every key, branch id and version id, `get_by_branch_version`
returns `None` when the branch is absent from `br_to_its_vers`, and
otherwise scans the entries of `lkv[key]` with version id ≤ the requested
version in descending version order, returning the value of the first
entry whose version id lies in the branch's visible set — or `None` when
that value is the empty byte string (tombstone) or no such entry exists. -/
theorem C1_point_read_follows_spec (s : Engine) (key : Bytes)
    (br_id : BranchID) (ver_id : VersionID) :
    get_by_branch_version s key br_id ver_id = specPointRead s key br_id ver_id := by
  unfold get_by_branch_version specPointRead
  cases aget s.br_to_its_vers br_id with
  | none => rfl
  | some V =>
    cases aget s.layered_kv key with
    | none => rfl
    | some kvers => rfl

/-! ## C4 -/

/-- C4 counterexample: `prune(Some(0))` does not fail — on the fresh
engine it returns `Ok` and leaves the state unchanged, refuting the claim
that a reserve count of zero is rejected. -/
theorem C4_cx_prune_zero_ok : prune Engine.new (some 0) = .ok Engine.new := by
  decide

/-- The reserve-count check is reachable only through `usize` overflow:
at `reserve = usize::MAX` the machine sum `1 + reserve` wraps to zero and
`prune` returns the validity error. -/
theorem prune_reserve_wraps_at_usize_max (s : Engine) :
    prune s (some (USIZE_MOD - 1)) =
      .error "reserved version number should NOT be zero" := by
  unfold prune
  rw [if_pos (by decide)]

/-- C4 (amended): the reserve-count validity check of `prune` tests the
wrapped `usize` sum `1 + reserve` against zero, so it fails only when
the addition overflows at `reserve = usize::MAX`; for every reserve
count below `usize::MAX` — in particular zero — `prune(Some(reserve))`
passes the check and proceeds to the pruning body. -/
theorem C4_prune_reserve_check_passes_below_max (s : Engine) (r : Nat)
    (hr : 1 + r < USIZE_MOD) :
    prune s (some r) = pruneAfterCheck s (1 + r) := by
  unfold prune
  simp only [Option.getD_some]
  rw [if_neg (by rw [Nat.mod_eq_of_lt hr]; omega), Nat.mod_eq_of_lt hr]

/-- C4 witness: at reserve count zero the check passes and `prune` runs
the pruning body with the internal count `1`. -/
theorem C4_witness : prune Engine.new (some 0) = pruneAfterCheck Engine.new 1 :=
  C4_prune_reserve_check_passes_below_max Engine.new 0 (by decide)

/-! ## C3 -/

/-- C3 counterexample: in the literal scenario, after `prune(Some(1))`
the read of key `[1]` at version v1 yields `[0x04]` (the last-writer-wins
value of the merged versions v2..v4), not `[0x05]` as claimed. -/
theorem C3_cx_prune_scenario_v1_not_05 :
    c3pruned.map (fun st => get_by_branch_version st [1] INITIAL_BRANCH_ID 1) ≠
      .ok (some [5]) := by
  decide

/-- C3 (amended): in the literal scenario where versions v1..v5 each
write key `[0x01]` with values `[0x01]`..`[0x05]` in order on the default
branch, after `prune(Some(1))`: reading key `[0x01]` at v1 yields
`[0x04]` (last-writer-wins over the merged versions v2..v4 written into
the rewrite version v1); versions v2..v4 are globally absent; and v5 is
retained and returns `[0x05]`. -/
theorem C3_prune_scenario :
    c3pruned.map (fun st => get_by_branch_version st [1] INITIAL_BRANCH_ID 1) =
      .ok (some [4]) ∧
    c3pruned.map (fun st =>
      (version_exists_globally st 2, version_exists_globally st 3,
        version_exists_globally st 4)) = .ok (false, false, false) ∧
    c3pruned.map (fun st =>
      (version_exists_on_branch st 5 INITIAL_BRANCH_ID,
        get_by_branch_version st [1] INITIAL_BRANCH_ID 5)) =
      .ok (true, some [5]) := by
  exact ⟨by decide, by decide, by decide⟩

/-! ## C8 -/

/-- C8: for every key and branch whose head version exists, if the key
has no effective value at the head of the branch, then
`remove_by_branch` returns `Ok(None)` and leaves the whole engine state
unchanged — nothing is added to the head version's change-set or to
`lkv[key]`. -/
theorem C8_remove_absent_key_noop {s : Engine} {key : Bytes}
    {br_id : BranchID} {vers : List VersionID} {head_ver : VersionID}
    (h1 : aget s.br_to_its_vers br_id = some vers)
    (h2 : vers.getLast? = some head_ver)
    (h3 : get_by_branch_version s key br_id head_ver = none) :
    remove_by_branch s key br_id = .ok (none, s) := by
  simp [remove_by_branch, remove_by_branch_version, write_by_branch_version,
    h1, h2, h3]

/-- C8 witness: on the one-version engine, removing the never-written
key `[1]` returns `Ok(None)` and leaves the state unchanged. -/
theorem C8_witness :
    remove_by_branch engOneVer [1] INITIAL_BRANCH_ID = .ok (none, engOneVer) :=
  @C8_remove_absent_key_noop engOneVer [1] INITIAL_BRANCH_ID [1] 1
    (by decide) (by decide) (by decide)

/-! ## C9 -/

/-- C9: after a successful `branch_swap(a, b)`, name `a` is bound to the
id previously bound to name `b` and vice versa; and when the default
branch id was, before the call, the id bound to name `a` (resp. `b`),
afterwards it is the id then bound to name `a` (resp. `b`) — the default
keeps pointing at the same name. -/
theorem C9_branch_swap_bindings {s s' : Engine} {a b : Bytes}
    {ida idb : BranchID}
    (h1 : aget s.br_name_to_br_id a = some ida)
    (h2 : aget s.br_name_to_br_id b = some idb)
    (h : branch_swap s a b = .ok s') :
    aget s'.br_name_to_br_id a = some idb ∧
    aget s'.br_name_to_br_id b = some ida ∧
    (s.default_branch = ida → s'.default_branch = idb) ∧
    (s.default_branch = idb → s'.default_branch = ida) := by
  simp only [branch_swap, h1, h2] at h
  split at h
  case isFalse => exact Except.noConfusion h
  case isTrue hm1 =>
  rcases hn1 : aget s.br_id_to_br_name ida with _ | nm1 <;> rw [hn1] at h
  · exact Except.noConfusion h
  rcases hn2 : aget (aset s.br_id_to_br_name ida b) idb with _ | nm2 <;>
    rw [hn2] at h
  · exact Except.noConfusion h
  rw [Except.ok.injEq] at h
  have hbn : s'.br_name_to_br_id =
      aset (aset s.br_name_to_br_id a idb) b ida := by
    rw [← h]
    split
    · rfl
    · split <;> rfl
  refine ⟨?_, ?_, ?_, ?_⟩
  · rw [hbn]
    by_cases hab : a = b
    · subst hab
      rw [h1] at h2
      rw [Option.some.injEq] at h2
      subst h2
      rw [aget_aset_self]
    · rw [aget_aset_ne _ hab, aget_aset_self]
  · rw [hbn, aget_aset_self]
  · intro hd
    rw [← h, if_pos hd]
  · intro hd
    rw [← h]
    by_cases hd1 : s.default_branch = ida
    · rw [if_pos hd1]
      show idb = ida
      exact (hd1.symm.trans hd).symm
    · rw [if_neg hd1, if_pos hd]

/-- The state after creating a second branch `"t"` (id `2`, empty
visible set) on a fresh engine. -/
def engTwoBr : Engine :=
  { default_branch := 1
    br_name_to_br_id := [([109, 97, 105, 110], 1), ([116], 2)]
    ver_name_to_ver_id := []
    br_id_to_br_name := [(1, [109, 97, 105, 110]), (2, [116])]
    ver_id_to_ver_name := []
    br_to_its_vers := [(1, []), (2, [])]
    ver_to_change_set := []
    layered_kv := []
    next_br_id := 3
    next_ver_id := 1 }

/-- `engTwoBr` after `branch_swap("main", "t")`. -/
def engTwoBrSwapped : Engine :=
  { engTwoBr with
    default_branch := 2
    br_name_to_br_id := [([109, 97, 105, 110], 2), ([116], 1)]
    br_id_to_br_name := [(1, [116]), (2, [109, 97, 105, 110])] }

/-- C9 witness: swapping `"main"` (id 1, the default) and `"t"` (id 2) on
the two-branch engine rebinds the names and moves the default id to 2. -/
theorem C9_witness :
    aget engTwoBrSwapped.br_name_to_br_id [109, 97, 105, 110] = some 2 ∧
    aget engTwoBrSwapped.br_name_to_br_id [116] = some 1 ∧
    (engTwoBr.default_branch = 1 → engTwoBrSwapped.default_branch = 2) ∧
    (engTwoBr.default_branch = 2 → engTwoBrSwapped.default_branch = 1) :=
  C9_branch_swap_bindings (by decide) (by decide) (by decide)

/-! ## C10 -/

/-- C10: `branch_remove` does not treat the default branch specially — in
every well-formed state where the default branch exists (bound in the
name directories and present in `br_to_its_vers`),
`branch_remove(branch_get_default())` returns `Ok`; afterwards
`branch_exists` on the default id is false while the stored default
branch id is unchanged, so the default id dangles and
`branch_get_default_name` fails (returns nothing). -/
theorem C10_branch_remove_default {s : Engine} {n : Bytes}
    (hwf : WF s)
    (h1 : aget s.br_id_to_br_name s.default_branch = some n)
    (h2 : (aget s.br_name_to_br_id n).isSome)
    (h3 : (aget s.br_to_its_vers s.default_branch).isSome) :
    ∃ s', branch_remove s s.default_branch = .ok s' ∧
      branch_exists s' s.default_branch = false ∧
      s'.default_branch = s.default_branch ∧
      branch_get_default_name s' = none := by
  obtain ⟨vs, hv⟩ := Option.isSome_iff_exists.mp h3
  obtain ⟨idv, hn⟩ := Option.isSome_iff_exists.mp h2
  have heq : branch_remove s s.default_branch = .ok
      { s with
        br_id_to_br_name := aremove s.br_id_to_br_name s.default_branch,
        br_name_to_br_id := aremove s.br_name_to_br_id n,
        br_to_its_vers :=
          aremove (aset s.br_to_its_vers s.default_branch [])
            s.default_branch } := by
    simp only [branch_remove, branch_truncate, hv, Bind.bind, Except.bind,
      h1, hn, aget_aset_self]
  refine ⟨_, heq, ?_, rfl, ?_⟩
  · show (aget (aremove s.br_id_to_br_name s.default_branch)
      s.default_branch).isSome = false
    rw [aget_aremove_self hwf.2.2.2]
    rfl
  · show aget (aremove s.br_id_to_br_name s.default_branch)
      s.default_branch = none
    exact aget_aremove_self hwf.2.2.2

/-- C10 witness: on the two-branch engine the default branch (id 1) is
removed successfully, stops existing, and the default id still points at
it. -/
theorem C10_witness :
    ∃ s', branch_remove engTwoBr engTwoBr.default_branch = .ok s' ∧
      branch_exists s' engTwoBr.default_branch = false ∧
      s'.default_branch = engTwoBr.default_branch ∧
      branch_get_default_name s' = none :=
  C10_branch_remove_default (n := [109, 97, 105, 110])
    (by decide) (by decide) (by decide) (by decide)

/-! ## C2 -/

/-- C2 counterexample: inserting the empty byte string succeeds, but the
subsequent `get` returns `None`, because the empty value is stored
verbatim and read back as the tombstone marker — refuting "for every
value v, after insert(k, v) succeeds get(k) returns Some(v)". -/
theorem C2_cx_insert_empty_value :
    (insert engOneVer [1] []).toOption.isSome = true ∧
    ¬ ((insert engOneVer [1] []).map (fun p => get p.2 [1]) =
      .ok (some [])) := by
  exact ⟨by decide, by decide⟩

/-- C2 (amended): for every key `k` and every non-empty value `v`, on the
default branch of a well-formed state: immediately after `insert(k, v)`
succeeds, `get(k)` returns `Some(v)`.  (The empty value must be excluded:
it encodes the tombstone, so `get` reads it back as `None`.) -/
theorem C2_read_your_writes {s s' : Engine} {key value : Bytes}
    {old : Option Bytes} (hwf : WF s) (hval : value ≠ [])
    (h : insert s key value = .ok (old, s')) : get s' key = some value := by
  unfold insert insert_by_branch branch_get_default at h
  rcases hb : aget s.br_to_its_vers s.default_branch with _ | vers
  · simp [hb] at h
  rcases hl : vers.getLast? with _ | head_ver
  · simp [hb, hl] at h
  simp only [hb, hl] at h
  unfold insert_by_branch_version write_by_branch_version at h
  rcases hc : aget s.ver_to_change_set head_ver with _ | cs
  · simp [hc] at h
  simp only [hc, Option.getD_some] at h
  rw [if_neg (by simp)] at h
  rw [Except.ok.injEq, Prod.mk.injEq] at h
  obtain ⟨-, hs'⟩ := h
  subst hs'
  have hsorted : ((aget s.layered_kv key).getD []).Sorted
      (fun a b => a.1 < b.1) := by
    rcases hk : aget s.layered_kv key with _ | m0
    · simp
    · simpa using hwf.2.1 (key, m0) (aget_mem hk)
  simp only [get, get_by_branch, branch_get_default, get_by_branch_version,
    hb, hl, aget_aset_self]
  rw [filter_le_vinsert hsorted, List.reverse_append, List.reverse_singleton,
    List.singleton_append,
    List.find?_cons_of_pos _ (by
      simpa [scontains] using getLast?_mem_nat hl)]
  simp [hval]

/-- The one-version engine after `insert([1], [0xAA])`. -/
def engC2after : Engine :=
  { Engine.new with
    ver_name_to_ver_id := [([118], 1)]
    ver_id_to_ver_name := [(1, [118])]
    br_to_its_vers := [(INITIAL_BRANCH_ID, [1])]
    ver_to_change_set := [(1, [[1]])]
    layered_kv := [([1], [(1, [170])])]
    next_ver_id := 2 }

/-- C2 witness: on the one-version engine, inserting value `[0xAA]` at
key `[1]` succeeds and the subsequent `get` returns it. -/
theorem C2_witness : get engC2after [1] = some [170] :=
  @C2_read_your_writes engOneVer engC2after [1] [170] none
    (by decide) (by decide) (by decide)

/-! ## C7 -/

theorem mem_keys_iff_aget_isSome [DecidableEq α] {l : List (α × β)} {k : α} :
    k ∈ l.map Prod.fst ↔ (aget l k).isSome := by
  constructor
  · intro h
    obtain ⟨e, he, rfl⟩ := List.mem_map.mp h
    exact aget_isSome_of_mem_keys he
  · intro h
    by_contra hc
    rw [aget_eq_none_of_not_mem_keys hc] at h
    simp at h

theorem cleanUpKeyStep_frame {ver : VersionID} {st st2 : Engine} {k : Bytes}
    (h : cleanUpKeyStep ver st k = .ok st2) :
    st2.br_to_its_vers = st.br_to_its_vers ∧
    st2.ver_to_change_set = st.ver_to_change_set := by
  unfold cleanUpKeyStep at h
  rcases h1 : aget st.layered_kv k with _ | kvers
  · simp [h1] at h
  simp only [h1] at h
  rcases h2 : aremoveC kvers ver with _ | p
  · simp [h2] at h
  simp only [h2] at h
  rw [Except.ok.injEq] at h
  subst h
  exact ⟨rfl, rfl⟩

theorem cleanUpKeyFold_frame {ver : VersionID} {ks : ChgSet}
    {st st2 : Engine} (h : ks.foldlM (cleanUpKeyStep ver) st = .ok st2) :
    st2.br_to_its_vers = st.br_to_its_vers ∧
    st2.ver_to_change_set = st.ver_to_change_set := by
  induction ks generalizing st with
  | nil =>
    rw [List.foldlM_nil] at h
    injection h with h
    subst h
    exact ⟨rfl, rfl⟩
  | cons k ks ih =>
    rw [List.foldlM_cons] at h
    rcases hs : cleanUpKeyStep ver st k with _ | st1 <;>
      simp only [hs, Bind.bind, Except.bind] at h
    · exact Except.noConfusion h
    obtain ⟨hb1, hv1⟩ := cleanUpKeyStep_frame hs
    obtain ⟨hb2, hv2⟩ := ih h
    exact ⟨hb2.trans hb1, hv2.trans hv1⟩

theorem cleanUpStep_frame {st st2 : Engine} {e : VersionID × ChgSet}
    (h : cleanUpStep st e = .ok st2) :
    st2.br_to_its_vers = st.br_to_its_vers ∧
    st2.ver_to_change_set = aremove st.ver_to_change_set e.1 := by
  unfold cleanUpStep at h
  rcases hf : e.2.foldlM (cleanUpKeyStep e.1) st with _ | st3 <;>
    simp only [hf, Bind.bind, Except.bind] at h
  · exact Except.noConfusion h
  obtain ⟨hb3, hv3⟩ := cleanUpKeyFold_frame hf
  rcases h1 : aget st3.ver_id_to_ver_name e.1 with _ | nm
  · simp [h1] at h
  simp only [h1] at h
  rcases h2 : aget st3.ver_name_to_ver_id nm with _ | idv
  · simp [h2] at h
  simp only [h2] at h
  rcases h3 : aget st3.ver_to_change_set e.1 with _ | cs
  · simp [h3] at h
  simp only [h3] at h
  rw [Except.ok.injEq] at h
  subst h
  exact ⟨hb3, by rw [hv3]⟩

theorem cleanUpFold_removes_orphans {V : List VersionID} :
    ∀ (L : List (VersionID × ChgSet)) (st st2 : Engine),
    L.foldlM cleanUpStep st = .ok st2 →
    st2.br_to_its_vers = st.br_to_its_vers ∧
    ((st.ver_to_change_set.map Prod.fst).Nodup →
      (∀ v ∈ st.ver_to_change_set.map Prod.fst, ¬ v ∈ V → v ∈ L.map Prod.fst) →
      ∀ v ∈ st2.ver_to_change_set.map Prod.fst, v ∈ V) := by
  intro L
  induction L with
  | nil =>
    intro st st2 h
    rw [List.foldlM_nil] at h
    injection h with h
    subst h
    refine ⟨rfl, fun _ hcov v hv => ?_⟩
    by_contra hc
    simpa using hcov v hv hc
  | cons e L ih =>
    intro st st2 h
    rw [List.foldlM_cons] at h
    rcases hs : cleanUpStep st e with _ | st1 <;>
      simp only [hs, Bind.bind, Except.bind] at h
    · exact Except.noConfusion h
    obtain ⟨hb1, hv1⟩ := cleanUpStep_frame hs
    obtain ⟨hb2, hcov2⟩ := ih st1 st2 h
    refine ⟨hb2.trans hb1, fun hnd hcov => ?_⟩
    have hnd1 : (st1.ver_to_change_set.map Prod.fst).Nodup := by
      rw [hv1]
      exact hnd.sublist ((aremove_sublist _ _).map Prod.fst)
    have hgone : ¬ e.1 ∈ st1.ver_to_change_set.map Prod.fst := by
      rw [hv1, mem_keys_iff_aget_isSome, aget_aremove_self hnd]
      simp
    refine hcov2 hnd1 (fun v hv hnv => ?_)
    have hvst : v ∈ st.ver_to_change_set.map Prod.fst := by
      rw [hv1] at hv
      exact ((aremove_sublist _ _).map Prod.fst).subset hv
    have hin : v ∈ ((e :: L).map Prod.fst) := hcov v hvst hnv
    rw [List.map_cons, List.mem_cons] at hin
    rcases hin with hc | hc
    · exact absurd (hc ▸ hv) hgone
    · exact hc

/-- C7: after `version_clean_up_globally` returns `Ok`, every version id
that is a key of `ver_to_change_set` is contained in the visible set of
at least one branch (the keys are a subset of the union over all branches
of `br_to_its_vers`). -/
theorem C7_cleanup_orphan_free {s s' : Engine}
    (hnd : (s.ver_to_change_set.map Prod.fst).Nodup)
    (h : version_clean_up_globally s = .ok s') :
    ∀ v ∈ s'.ver_to_change_set.map Prod.fst, v ∈ validVers s' := by
  unfold version_clean_up_globally at h
  obtain ⟨hbtv, hcov⟩ :=
    cleanUpFold_removes_orphans (V := validVers s) _ _ _ h
  have hvv : validVers s' = validVers s := by
    unfold validVers
    rw [hbtv]
  rw [hvv]
  refine hcov hnd fun v hv hnv => ?_
  obtain ⟨e, he, rfl⟩ := List.mem_map.mp hv
  exact List.mem_map.mpr ⟨e, List.mem_filter.mpr ⟨he, by simpa using hnv⟩, rfl⟩

/-- C7 witness: on the one-version engine (whose only version, id 1,
lives on the default branch) the cleanup succeeds and version 1 — the
sole key of the change-set index — is visible on some branch. -/
theorem C7_witness : 1 ∈ validVers engOneVer :=
  C7_cleanup_orphan_free (s := engOneVer) (by decide) (by decide) 1 (by decide)

/-! ## C5 -/

theorem branch_remove_fields {s s1 : Engine} {brid : BranchID}
    (h : branch_remove s brid = .ok s1) :
    s1.layered_kv = s.layered_kv ∧ s1.next_br_id = s.next_br_id ∧
    s1.next_ver_id = s.next_ver_id ∧
    s1.br_to_its_vers = aremove (aset s.br_to_its_vers brid []) brid := by
  unfold branch_remove branch_truncate at h
  rcases h0 : aget s.br_to_its_vers brid with _ | vs
  · simp [h0, Bind.bind, Except.bind] at h
  simp only [h0, Bind.bind, Except.bind] at h
  rcases h1 : aget s.br_id_to_br_name brid with _ | nm
  · simp [h1] at h
  simp only [h1] at h
  rcases h2 : aget s.br_name_to_br_id nm with _ | idv
  · simp [h2] at h
  simp only [h2] at h
  rcases h3 : aget (aset s.br_to_its_vers brid []) brid with _ | vs2
  · simp [h3] at h
  simp only [h3] at h
  rw [Except.ok.injEq] at h
  subst h
  exact ⟨rfl, rfl, rfl, rfl⟩

/-- C5: immediately after a successful
`branch_create_by_base_branch_version(new, _, base, base_ver, _)` on a
well-formed state, for every key, reading at `(new_branch_id, base_ver)`
gives the same result as reading at `(base_branch_id, base_ver)`. -/
theorem C5_branch_create_inherits {s s' : Engine} {new_name ver_name : Bytes}
    {base_br : BranchID} {base_ver : VersionID} {force : Bool}
    {new_id : BranchID} (hwf : WF s)
    (h : branch_create_by_base_branch_version s new_name ver_name base_br
      base_ver force = .ok s')
    (hid : aget s'.br_name_to_br_id new_name = some new_id) :
    ∀ key, get_by_branch_version s' key new_id base_ver =
      get_by_branch_version s' key base_br base_ver := by
  unfold branch_create_by_base_branch_version at h
  split at h
  · exact Except.noConfusion h
  unfold do_branch_create_by_base_branch_version at h
  rcases hpre : (if force then
      match aget s.br_name_to_br_id new_name with
      | some brid => branch_remove s brid
      | none => .ok s
    else .ok s) with _ | s1
  · rw [hpre] at h
    simp only [Bind.bind, Except.bind] at h
    exact Except.noConfusion h
  rw [hpre] at h
  simp only [Bind.bind, Except.bind] at h
  have hs1 : s1.layered_kv = s.layered_kv ∧ s1.next_br_id = s.next_br_id ∧
      s1.next_ver_id = s.next_ver_id ∧
      (∀ e ∈ s1.br_to_its_vers,
        e ∈ s.br_to_its_vers ∨ e.2 = ([] : List VersionID)) := by
    by_cases hf : force
    · rw [if_pos hf] at hpre
      rcases hn : aget s.br_name_to_br_id new_name with _ | brid
      · simp only [hn] at hpre
        injection hpre with hpre
        subst hpre
        exact ⟨rfl, rfl, rfl, fun e he => Or.inl he⟩
      · simp only [hn] at hpre
        obtain ⟨hl, hb, hv, hbtv⟩ := branch_remove_fields hpre
        refine ⟨hl, hb, hv, fun e he => ?_⟩
        rw [hbtv] at he
        rcases mem_aset ((aremove_sublist _ _).subset he) with h' | h'
        · exact Or.inr (by rw [h'])
        · exact Or.inl h'
    · rw [if_neg hf] at hpre
      injection hpre with hpre
      subst hpre
      exact ⟨rfl, rfl, rfl, fun e he => Or.inl he⟩
  split at h
  · exact Except.noConfusion h
  rcases hbase : aget s1.br_to_its_vers base_br with _ | vers
  · simp [hbase] at h
  simp only [hbase] at h
  simp only [versCopied] at h
  rcases hmem : scontains vers base_ver with _ | _
  · rw [hmem] at h
    rw [if_neg (by simp)] at h
    simp [Bind.bind, Except.bind] at h
  rw [if_pos hmem] at h
  simp only [Bind.bind, Except.bind] at h
  unfold version_create_by_branch at h
  split at h
  · exact Except.noConfusion h
  simp only [aget_aset_self] at h
  rw [Except.ok.injEq] at h
  subst h
  rw [show (aget (aset s1.br_name_to_br_id new_name s1.next_br_id)
      new_name) = some s1.next_br_id from aget_aset_self _ _ _] at hid
  rw [Option.some.injEq] at hid
  subst hid
  -- facts about the base branch
  have hbase_mem : (base_br, vers) ∈ s.br_to_its_vers := by
    rcases hs1.2.2.2 (base_br, vers) (aget_mem hbase) with h' | h'
    · exact h'
    · have hver : vers = [] := h'
      rw [hver] at hmem
      simp [scontains] at hmem
  have hwfe := hwf.1 _ hbase_mem
  have hbv_mem : base_ver ∈ vers := by simpa [scontains] using hmem
  have hbne : base_br ≠ s1.next_br_id := by
    rw [hs1.2.1]
    exact Nat.ne_of_lt hwfe.2.1
  have hvgt : base_ver < s1.next_ver_id := by
    rw [hs1.2.2.1]
    exact hwfe.2.2 _ hbv_mem
  intro key
  unfold get_by_branch_version
  simp only [aget_aset_self, aget_aset_ne _ hbne, hbase]
  rcases hk : aget s1.layered_kv key with _ | kvers
  · rfl
  simp only [hk]
  have hpred : ∀ e ∈ (kvers.filter (fun e => e.1 ≤ base_ver)).reverse,
      scontains (sinsert s1.next_ver_id
        (vers.filter (fun v => v ≤ base_ver))) e.1 = scontains vers e.1 := by
    intro e he
    rw [List.mem_reverse, List.mem_filter] at he
    have hle : e.1 ≤ base_ver := by simpa using he.2
    simp only [scontains]
    rw [decide_eq_decide]
    constructor
    · intro hm
      rcases mem_sinsert.mp hm with hm | hm
      · exact absurd (hm ▸ lt_of_le_of_lt hle hvgt) (lt_irrefl _)
      · exact (List.mem_filter.mp hm).1
    · intro hm
      exact mem_sinsert.mpr (Or.inr (List.mem_filter.mpr ⟨hm, by simpa using hle⟩))
  rw [find?_congr hpred]

/-- The two-branch engine with a version (id 1) carrying key `[2]` value
`[9]` on the default branch. -/
def engC5base : Engine :=
  { engTwoBr with
    ver_name_to_ver_id := [([118], 1)]
    ver_id_to_ver_name := [(1, [118])]
    br_to_its_vers := [(1, [1]), (2, [])]
    ver_to_change_set := [(1, [[2]])]
    layered_kv := [([2], [(1, [9])])]
    next_ver_id := 2 }

/-- `engC5base` after creating branch `"n"` (id 3, first version id 2)
from `(branch 1, version 1)`. -/
def engC5created : Engine :=
  ((branch_create_by_base_branch_version engC5base [110] [119] 1 1
    false).toOption).getD engC5base

/-- C5 witness: creating branch `"n"` from `(branch 1, version 1)` on
`engC5base` makes reads at `(new, 1)` and `(base, 1)` agree on key
`[2]`. -/
theorem C5_witness :
    get_by_branch_version engC5created [2] 3 1 =
    get_by_branch_version engC5created [2] 1 1 :=
  @C5_branch_create_inherits engC5base engC5created [110] [119] 1 1 false 3
    (by decide) (by decide) (by decide) [2]

/-! ## C6 -/

theorem mem_zip_self {l : List Nat} {p : Nat × Nat} (h : p ∈ l.zip l) :
    p.1 = p.2 := by
  induction l with
  | nil => simp at h
  | cons x t ih =>
    rw [List.zip_cons_cons] at h
    rcases List.mem_cons.mp h with h | h
    · rw [h]
    · exact ih h

theorem zip_fork_lower_mem {S D : List Nat} {a c : Nat}
    (hS : S.Sorted (· < ·))
    (hf : (S.zip D).find? (fun p => p.1 ≠ p.2) = some (a, c)) :
    ∀ x ∈ S, x < a → x ∈ D := by
  induction S generalizing D with
  | nil => intro x hx; simp at hx
  | cons s0 S' ih =>
    cases D with
    | nil => simp [List.zip_nil_right] at hf
    | cons d0 D' =>
      rw [List.zip_cons_cons] at hf
      by_cases h0 : s0 = d0
      · rw [List.find?_cons_of_neg _ (by simp [h0])] at hf
        intro x hx hxa
        rcases List.mem_cons.mp hx with hx | hx
        · exact List.mem_cons.mpr (Or.inl (hx.trans h0))
        · exact List.mem_cons.mpr
            (Or.inr (ih (List.sorted_cons.mp hS).2 hf x hx hxa))
      · rw [List.find?_cons_of_pos _ (by simp [h0]), Option.some.injEq] at hf
        have ha : a = s0 := by
          rw [Prod.mk.injEq] at hf
          exact hf.1.symm
        intro x hx hxa
        exfalso
        rcases List.mem_cons.mp hx with hx | hx
        · exact absurd (ha ▸ hx ▸ hxa) (lt_irrefl _)
        · exact absurd (lt_trans ((List.sorted_cons.mp hS).1 x hx) (ha ▸ hxa))
            (lt_irrefl _)

theorem zip_nofork_le_mem {S D : List Nat} (hS : S.Sorted (· < ·))
    (hf : (S.zip D).find? (fun p => p.1 ≠ p.2) = none) :
    ∀ x ∈ S, ∀ tD, D.getLast? = some tD → x ≤ tD → x ∈ D := by
  induction S generalizing D with
  | nil => intro x hx; simp at hx
  | cons s0 S' ih =>
    cases D with
    | nil =>
      intro x hx tD htD
      simp at htD
    | cons d0 D' =>
      rw [List.zip_cons_cons] at hf
      have h0 : s0 = d0 := by
        by_contra hc
        rw [List.find?_cons_of_pos _ (by simp [hc])] at hf
        exact Option.noConfusion hf
      rw [List.find?_cons_of_neg _ (by simp [h0])] at hf
      intro x hx tD htD hxle
      rcases List.mem_cons.mp hx with hx | hx
      · exact List.mem_cons.mpr (Or.inl (hx.trans h0))
      · cases D' with
        | nil =>
          exfalso
          rw [List.getLast?_singleton, Option.some.injEq] at htD
          have hs0x : s0 < x := (List.sorted_cons.mp hS).1 x hx
          subst htD
          subst h0
          exact absurd (lt_of_lt_of_le hs0x hxle) (lt_irrefl _)
        | cons d1 D'' =>
          rw [List.getLast?_cons_cons] at htD
          exact List.mem_cons.mpr
            (Or.inr (ih (List.sorted_cons.mp hS).2 hf x hx tD htD hxle))

/-- The second merge is a no-op: when the source's visible set is already
contained in the target's and the target's greatest version is visible on
the source, `do_branch_merge_to` succeeds and returns the state
unchanged. -/
theorem merge_second_noop {s1 : Engine} {b t : BranchID} {S T : List Nat}
    (hSb : aget s1.br_to_its_vers b = some S)
    (hTt : aget s1.br_to_its_vers t = some T)
    (hSortS : S.Sorted (· < ·)) (hSortTv : T.Sorted (· < ·))
    (hsub : ∀ x ∈ S, x ∈ T) (htvne : T ≠ [])
    (hlastS : ∀ m, T.getLast? = some m → m ∈ S) :
    do_branch_merge_to s1 b t false = .ok s1 := by
  unfold do_branch_merge_to
  simp only [hSb, hTt]
  rcases hm : T.getLast? with _ | m
  · exact absurd (List.getLast?_eq_none_iff.mp hm) htvne
  have hmS : m ∈ S := hlastS m hm
  rw [if_neg (by
    simp only [mergeSafetyOk, hm, scontains, not_and, not_not]
    intro hcontra
    exact decide_eq_true hmS)]
  rcases hf2 : (S.zip T).find? (fun p => p.1 ≠ p.2) with _ | fork2
  · simp only [hf2]
    rcases hlS : S.getLast? with _ | lS
    · simp only [hlS]
    simp only [hlS, hm]
    have hlSmem : lS ∈ S := getLast?_mem_nat hlS
    have h1 : lS ≤ m := sorted_le_getLast hSortTv (hsub lS hlSmem) hm
    have h2 : m ≤ lS := sorted_le_getLast hSortS hmS hlS
    rw [if_pos (le_antisymm h1 h2)]
  · simp only [hf2]
    have hins : insFold (S.filter (fun v => fork2.1 ≤ v)) T = T :=
      insFold_eq_self hSortTv fun x hx => hsub x (List.mem_filter.mp hx).1
    rw [hins, aset_eq_self hTt]

/-- C6: if `branch_merge_to(s, d)` succeeds, an immediately following
second `branch_merge_to(s, d)` also succeeds and leaves the entire engine
state unchanged — the second call is a no-op. -/
theorem C6_merge_idempotent {s s1 : Engine} {b t : BranchID} (hwf : WF s)
    (h : branch_merge_to s b t = .ok s1) :
    branch_merge_to s1 b t = .ok s1 := by
  unfold branch_merge_to do_branch_merge_to at h
  rcases hS : aget s.br_to_its_vers b with _ | S
  · simp [hS] at h
  simp only [hS] at h
  rcases hD : aget s.br_to_its_vers t with _ | D
  · simp [hD] at h
  simp only [hD] at h
  have hSortS : S.Sorted (· < ·) := (hwf.1 _ (aget_mem hS)).1
  have hSortD : D.Sorted (· < ·) := (hwf.1 _ (aget_mem hD)).1
  split at h
  · exact Except.noConfusion h
  case isFalse hsafe =>
  have hsafety : mergeSafetyOk S D = true := by
    by_contra hc
    exact hsafe ⟨by simp, by simpa using hc⟩
  have hbt_of_ne : S ≠ D → b ≠ t := by
    intro hne hc
    rw [hc, hD, Option.some.injEq] at hS
    exact hne hS.symm
  rcases hfork : (S.zip D).find? (fun p => p.1 ≠ p.2) with _ | fork
  · -- no fork point between the two visible sets
    simp only [hfork] at h
    rcases hlS : S.getLast? with _ | lS
    · -- the source branch is empty: the first call was a no-op
      simp only [hlS] at h
      injection h with h
      subst h
      unfold branch_merge_to do_branch_merge_to
      simp only [hS, hD]
      rw [if_neg (by simp [hsafety])]
      simp only [hfork, hlS]
    simp only [hlS] at h
    rcases hlD : D.getLast? with _ | lD
    · -- the target branch is empty: copy all versions
      simp only [hlD] at h
      injection h with h
      subst h
      have hDnil : D = [] := List.getLast?_eq_none_iff.mp hlD
      subst hDnil
      have hlSmem : lS ∈ S := getLast?_mem_nat hlS
      have hbt : b ≠ t := hbt_of_ne (by
        intro hc
        rw [hc] at hlSmem
        simp at hlSmem)
      refine merge_second_noop (S := S) (T := insFold S [])
        (by simpa [aget_aset_ne _ hbt] using hS) (aget_aset_self _ _ _)
        hSortS (sorted_insFold (by simp)) ?_ ?_ ?_
      · intro x hx
        exact mem_insFold.mpr (Or.inl hx)
      · intro hc
        have hmt : lS ∈ insFold S [] := mem_insFold.mpr (Or.inl hlSmem)
        rw [hc] at hmt
        simp at hmt
      · intro m hm
        rcases mem_insFold.mp (getLast?_mem_nat hm) with h' | h'
        · exact h'
        · simp at h'
    · -- both branches non-empty, no fork: compare the latest versions
      simp only [hlD] at h
      by_cases heq : lS = lD
      · rw [if_pos heq] at h
        injection h with h
        subst h
        unfold branch_merge_to do_branch_merge_to
        simp only [hS, hD]
        rw [if_neg (by simp [hsafety])]
        simp only [hfork, hlS, hlD]
        rw [if_pos heq]
      · rw [if_neg heq] at h
        by_cases hlt : lD < lS
        · rw [if_pos hlt] at h
          injection h with h
          subst h
          have hlDS : lD ∈ S := by
            unfold mergeSafetyOk at hsafety
            rw [hlD] at hsafety
            simpa [scontains] using hsafety
          have hbt : b ≠ t := hbt_of_ne (by
            intro hc
            rw [hc, hlD] at hlS
            injection hlS with hlS
            exact heq hlS.symm)
          have hlDmem : lD ∈ D := getLast?_mem_nat hlD
          refine merge_second_noop (S := S)
            (T := insFold (S.filter (fun v => lD + 1 ≤ v)) D)
            (by simpa [aget_aset_ne _ hbt] using hS) (aget_aset_self _ _ _)
            hSortS (sorted_insFold hSortD) ?_ ?_ ?_
          · intro x hx
            by_cases hxg : lD + 1 ≤ x
            · exact mem_insFold.mpr
                (Or.inl (List.mem_filter.mpr ⟨hx, by simpa using hxg⟩))
            · exact mem_insFold.mpr (Or.inr
                (zip_nofork_le_mem hSortS hfork x hx lD hlD
                  (Nat.lt_succ_iff.mp (lt_of_not_le hxg))))
          · intro hc
            have hmt : lD ∈ insFold (S.filter (fun v => lD + 1 ≤ v)) D :=
              mem_insFold.mpr (Or.inr hlDmem)
            rw [hc] at hmt
            simp at hmt
          · intro m hm
            have hmmem := getLast?_mem_nat hm
            rcases mem_insFold.mp hmmem with h' | h'
            · exact (List.mem_filter.mp h').1
            · have h1 : m ≤ lD := sorted_le_getLast hSortD h' hlD
              have h2 : lD ≤ m := sorted_le_getLast (sorted_insFold hSortD)
                (mem_insFold.mpr (Or.inr hlDmem)) hm
              exact (le_antisymm h1 h2) ▸ hlDS
        · -- the source's latest is older: the first call was a no-op
          rw [if_neg hlt] at h
          injection h with h
          subst h
          unfold branch_merge_to do_branch_merge_to
          simp only [hS, hD]
          rw [if_neg (by simp [hsafety])]
          simp only [hfork, hlS, hlD]
          rw [if_neg heq, if_neg hlt]
  · -- a fork point exists: copy the source's versions from the fork on
    simp only [hfork] at h
    injection h with h
    subst h
    obtain ⟨a, c⟩ := fork
    have hane : a ≠ c := by simpa using List.find?_some hfork
    have hmemzip := List.mem_of_find?_eq_some hfork
    obtain ⟨haS, hcD⟩ := List.of_mem_zip hmemzip
    have hbt : b ≠ t := hbt_of_ne (by
      intro hc
      subst hc
      exact hane (mem_zip_self hmemzip))
    have hDne : D ≠ [] := List.ne_nil_of_mem hcD
    rcases hlD : D.getLast? with _ | lD
    · exact absurd (List.getLast?_eq_none_iff.mp hlD) hDne
    have hlDS : lD ∈ S := by
      unfold mergeSafetyOk at hsafety
      rw [hlD] at hsafety
      simpa [scontains] using hsafety
    have hlDmem : lD ∈ D := getLast?_mem_nat hlD
    refine merge_second_noop (S := S)
      (T := insFold (S.filter (fun v => (a, c).1 ≤ v)) D)
      (by simpa [aget_aset_ne _ hbt] using hS) (aget_aset_self _ _ _)
      hSortS (sorted_insFold hSortD) ?_ ?_ ?_
    · intro x hx
      by_cases hxa : a ≤ x
      · exact mem_insFold.mpr
          (Or.inl (List.mem_filter.mpr ⟨hx, by simpa using hxa⟩))
      · exact mem_insFold.mpr
          (Or.inr (zip_fork_lower_mem hSortS hfork x hx (lt_of_not_le hxa)))
    · intro hc
      have hmt : lD ∈ insFold (S.filter (fun v => (a, c).1 ≤ v)) D :=
        mem_insFold.mpr (Or.inr hlDmem)
      rw [hc] at hmt
      simp at hmt
    · intro m hm
      rcases mem_insFold.mp (getLast?_mem_nat hm) with h' | h'
      · exact (List.mem_filter.mp h').1
      · have h1 : m ≤ lD := sorted_le_getLast hSortD h' hlD
        have h2 : lD ≤ m := sorted_le_getLast (sorted_insFold hSortD)
          (mem_insFold.mpr (Or.inr hlDmem)) hm
        exact (le_antisymm h1 h2) ▸ hlDS

/-- `engC5base` after merging branch 1 (versions `[1]`) into the empty
branch 2. -/
def engC6after : Engine :=
  ((branch_merge_to engC5base 1 2).toOption).getD engC5base

/-- C6 witness: after merging branch 1 into branch 2 once, repeating the
merge returns `Ok` with the state unchanged. -/
theorem C6_witness : branch_merge_to engC6after 1 2 = .ok engC6after :=
  C6_merge_idempotent (s := engC5base) (by decide) (by decide)
